import Mathlib

/-!
Verification of the `rbl_circular_buffer` crate (RedBeardLab/circular-buffer-rs).

The Rust source (src/lib.rs) is shallowly embedded below: the raw storage
becomes a `List α` of length `size` (the `alloc_zeroed` storage is modelled as
`List.replicate size default`), raw-pointer reads and writes become `List.getD`
and `List.set` at the same indices, and every state-mutating method becomes a
function from the record to an updated record (returning its result alongside).
A `Vec<T>` sink becomes a pair of its elements and its capacity.
-/

namespace CircBuf

/-- Model of a Rust `Vec<T>` sink: `data` holds the elements, `cap` the
allocated capacity (`Vec::capacity`). -/
structure Vec (α : Type) where
  data : List α
  cap : Nat
deriving Repr, DecidableEq

/-- Model of `Vec::push`: appends the element; the backing allocation grows
only when the vector is already at capacity (amortized growth). Inside `fill`
the loop guard guarantees spare room, so the growing branch is never taken
there. -/
def Vec.push {α : Type} (v : Vec α) (x : α) : Vec α :=
  if v.data.length < v.cap then { data := v.data ++ [x], cap := v.cap }
  else { data := v.data ++ [x], cap := max (2 * v.cap) (v.data.length + 1) }

/-- Model of the `CircularBuffer<T>` struct (src/lib.rs lines 109-118):
`buffer` is the pointed-to storage (length `size`), `w` and `r` the write and
read cursors, `full` the disambiguating flag. -/
structure CircularBuffer (α : Type) where
  buffer : List α
  w : Nat
  r : Nat
  size : Nat
  full : Bool
deriving Repr, DecidableEq

namespace CircularBuffer

variable {α : Type} [Inhabited α]

/-- Model of `CircularBuffer::new`: zeroed storage of exactly `size` slots
(`default` stands for the zeroed bytes), both cursors at 0, flag clear. -/
def new (size : Nat) : CircularBuffer α :=
  { buffer := List.replicate size default, w := 0, r := 0, size := size, full := false }

/-- Model of `len` (src/lib.rs lines 145-156), branch for branch. -/
def len (cb : CircularBuffer α) : Nat :=
  if cb.full then cb.size
  else if cb.w > cb.r then cb.w - cb.r
  else if cb.w = cb.r then 0
  else cb.size - cb.r + cb.w

/-- Model of `next_inc`: increment with wraparound. -/
def next_inc (cb : CircularBuffer α) (i : Nat) : Nat :=
  (i + 1) % cb.size

/-- Model of `w_inc`. -/
def w_inc (cb : CircularBuffer α) : CircularBuffer α :=
  { cb with w := cb.next_inc cb.w }

/-- Model of `r_inc`. -/
def r_inc (cb : CircularBuffer α) : CircularBuffer α :=
  { cb with r := cb.next_inc cb.r }

/-- Model of `r_inc_of`: bulk advance of the read cursor. -/
def r_inc_of (cb : CircularBuffer α) (n : Nat) : CircularBuffer α :=
  { cb with r := (cb.r + n) % cb.size }

/-- Model of `write`: stores `value` at the write cursor, then advances it. -/
def write (cb : CircularBuffer α) (value : α) : CircularBuffer α :=
  let w_index := cb.w
  let cb := cb.w_inc
  { cb with buffer := cb.buffer.set w_index value }

/-- Model of `read`: loads the value at the read cursor, advancing it. -/
def read (cb : CircularBuffer α) : CircularBuffer α × α :=
  let r_index := cb.r
  let cb := cb.r_inc
  (cb, cb.buffer.getD r_index default)

/-- Model of the private `drop` helper: `drop_in_place` finalizes the value at
the write cursor but leaves the stored bytes in place, so under value
semantics the state is unchanged. -/
def dropAtW (cb : CircularBuffer α) : CircularBuffer α :=
  cb

/-- Model of `push` (src/lib.rs lines 201-214): on a full buffer first drop the
oldest value in place and advance the read cursor, then write, then decide the
new `full` flag and the returned free-slot count. -/
def push (cb : CircularBuffer α) (value : α) : CircularBuffer α × Nat :=
  let cb := if cb.full then cb.dropAtW.r_inc else cb
  let cb := cb.write value
  if cb.w = cb.r then ({ cb with full := true }, 0)
  else (cb, cb.size - cb.len)

/-- Model of `Iterator::next` (src/lib.rs lines 365-373). -/
def next (cb : CircularBuffer α) : CircularBuffer α × Option α :=
  match cb.len with
  | 0 => (cb, none)
  | _ + 1 =>
    let cb := { cb with full := false }
    let (cb, v) := cb.read
    (cb, some v)

/-- Model of `Iterator::size_hint` (src/lib.rs lines 375-377). -/
def size_hint (cb : CircularBuffer α) : Nat × Option Nat :=
  (cb.len, some cb.len)

/-- Loop body of `fill`. The Rust `while` guard is the sink remaining room
`return_vector.capacity() - return_vector.len()`, which decreases by exactly
one on every iteration that pushes (capacity fixed, length + 1), so the room
at entry serves as structural fuel that always mirrors the guard. -/
def fillGo : Nat → CircularBuffer α → Vec α → Nat → CircularBuffer α × Vec α × Nat
  | 0, cb, vec, i => (cb, vec, i)
  | fuel + 1, cb, vec, i =>
    match cb.next with
    | (cb, some element) => fillGo fuel cb (vec.push element) (i + 1)
    | (cb, none) => (cb, vec, i)

/-- Model of `fill` (src/lib.rs lines 236-248): while the sink has spare room,
pull one element via `next` and append it, counting the moves. -/
def fill (cb : CircularBuffer α) (vec : Vec α) : CircularBuffer α × Vec α × Nat :=
  fillGo (vec.cap - vec.data.length) cb vec 0

/-- Length of a half-open index range, modelling `Range::len`. -/
def rlen (rg : Nat × Nat) : Nat :=
  rg.2 - rg.1

/-- Model of `split_in_ranges` (src/lib.rs lines 250-262): the occupied region
as at most two contiguous index ranges. -/
def split_in_ranges (cb : CircularBuffer α) : (Nat × Nat) × Option (Nat × Nat) :=
  if cb.r < cb.w then ((cb.r, cb.w), none)
  else if cb.r = cb.w then
    if cb.full then ((cb.r, cb.size), some (0, cb.w))
    else ((cb.r, cb.r), none)
  else ((cb.r, cb.size), some (0, cb.w))

/-- Model of `fill_vector_from_split` (src/lib.rs lines 264-289): bulk-copy as
much of one contiguous range as fits into the spare room of the sink
(`copy_nonoverlapping` + `set_len` become a list append), then advance the
read cursor and clear the flag. -/
def fill_vector_from_split (cb : CircularBuffer α) (range : Nat × Nat) (vec : Vec α) :
    CircularBuffer α × Vec α × Nat :=
  let sink_capacity := vec.cap - vec.data.length
  if sink_capacity = 0 then (cb, vec, 0)
  else if rlen range = 0 then (cb, vec, 0)
  else
    let to_push := if rlen range ≤ sink_capacity then range
      else (range.1, range.1 + sink_capacity)
    let moved := (cb.buffer.drop to_push.1).take (rlen to_push)
    let vec : Vec α := { data := vec.data ++ moved, cap := vec.cap }
    let cb := { cb.r_inc_of (rlen to_push) with full := false }
    (cb, vec, rlen to_push)

/-- Model of `_fast_fill` (src/lib.rs lines 301-319): the bulk-copy drain over
the split ranges. -/
def _fast_fill (cb : CircularBuffer α) (vec : Vec α) : CircularBuffer α × Vec α × Nat :=
  if cb.len = 0 then (cb, vec, 0)
  else
    let sink_capacity := vec.cap - vec.data.length
    if sink_capacity = 0 then (cb, vec, 0)
    else
      let (r1, r2) := cb.split_in_ranges
      let (cb, vec, p1) := cb.fill_vector_from_split r1 vec
      if p1 = sink_capacity then (cb, vec, p1)
      else
        match r2 with
        | some r2 =>
          let (cb, vec, p2) := cb.fill_vector_from_split r2 vec
          (cb, vec, p1 + p2)
        | none => (cb, vec, p1)

/-- Helper for `clone`: copy the slots of one index range from the source
storage into the destination storage, slot by slot (each element cloned in
place, matching the per-index loop in the source). -/
def copyRange (src : List α) (rg : Nat × Nat) (dst : List α) : List α :=
  (List.range' rg.1 (rlen rg)).foldl (fun d i => d.set i (src.getD i default)) dst

/-- Model of `Clone::clone` (src/lib.rs lines 322-357): fresh storage via
`new`, same cursors and flag, and the occupied slots (via the range split)
cloned across at identical indices. -/
def clone (cb : CircularBuffer α) : CircularBuffer α :=
  let nw : CircularBuffer α := new cb.size
  let nw := { nw with w := cb.w, r := cb.r, size := cb.size, full := cb.full }
  let (r1, r2) := cb.split_in_ranges
  let buf := copyRange cb.buffer r1 nw.buffer
  let buf :=
    match r2 with
    | some r2 => copyRange cb.buffer r2 buf
    | none => buf
  { nw with buffer := buf }

/-- Observation function (the occupied region of the data model, spec section
3): the live values oldest-first, walking the read cursor forward
circularly for `len` steps. -/
def contents (cb : CircularBuffer α) : List α :=
  (List.range cb.len).map (fun i => cb.buffer.getD ((cb.r + i) % cb.size) default)

/-- Well-formedness of a buffer state: positive capacity, cursors in range,
storage of exactly `size` slots, and the flag only set when the cursors
coincide. Every state reachable from `new` satisfies it. -/
def WF (cb : CircularBuffer α) : Prop :=
  0 < cb.size ∧ cb.w < cb.size ∧ cb.r < cb.size ∧
    cb.buffer.length = cb.size ∧ (cb.full = true → cb.r = cb.w)

instance (cb : CircularBuffer Nat) : Decidable (WF cb) := by
  unfold WF
  infer_instance

/-- Fold a list of values through `push`, keeping the buffer. -/
def pushAll (cb : CircularBuffer α) (vs : List α) : CircularBuffer α :=
  vs.foldl (fun c v => (c.push v).1) cb

/-- Fold a list of values through `push`, collecting the returned free-slot
counts. -/
def pushRets (cb : CircularBuffer α) (vs : List α) : List Nat :=
  (vs.foldl (fun (p : CircularBuffer α × List Nat) v =>
    ((p.1.push v).1, p.2 ++ [(p.1.push v).2])) (cb, [])).2

end CircularBuffer

/-! Arithmetic and list helpers. -/

theorem mod_two_cases (a n : Nat) (h : a < 2 * n) :
    a % n = if a < n then a else a - n := by
  split
  · exact Nat.mod_eq_of_lt (by omega)
  · rw [Nat.mod_eq_sub_mod (by omega), Nat.mod_eq_of_lt (by omega)]

theorem getD_set_self {α : Type} (l : List α) (i : Nat) (h : i < l.length) (a d : α) :
    (l.set i a).getD i d = a := by
  rw [List.getD_eq_getElem?_getD, List.getElem?_set_self h]
  rfl

theorem getD_set_ne {α : Type} (l : List α) (i j : Nat) (h : i ≠ j) (a d : α) :
    (l.set i a).getD j d = l.getD j d := by
  rw [List.getD_eq_getElem?_getD, List.getElem?_set_ne h, ← List.getD_eq_getElem?_getD]

theorem drop_take_eq_map_getD {α : Type} [Inhabited α] (l : List α) :
    ∀ (k a : Nat), a + k ≤ l.length →
      (l.drop a).take k = (List.range k).map (fun i => l.getD (a + i) default) := by
  intro k
  induction k with
  | zero => intro a _; simp
  | succ n ih =>
    intro a ha
    have hal : a < l.length := by omega
    rw [List.drop_eq_getElem_cons hal, List.take_succ_cons, List.range_succ_eq_map,
      List.map_cons, List.map_map, ih (a + 1) (by omega)]
    congr 1
    · simp [List.getD_eq_getElem?_getD, List.getElem?_eq_getElem hal]
    · apply List.map_congr_left
      intro i _
      simp only [Function.comp_apply, Nat.succ_eq_add_one]
      congr 1
      omega

namespace CircularBuffer

variable {α : Type} [Inhabited α]

/-! Basic facts about `len`, `contents` and well-formed states. -/

theorem len_le_size (cb : CircularBuffer α) (h : WF cb) : cb.len ≤ cb.size := by
  obtain ⟨h1, h2, h3, _, _⟩ := h
  unfold len
  split_ifs <;> omega

theorem len_lt_size (cb : CircularBuffer α) (h : WF cb) (hf : cb.full = false) :
    cb.len < cb.size := by
  obtain ⟨h1, h2, h3, _, _⟩ := h
  simp only [len, hf, Bool.false_eq_true, if_false]
  split_ifs <;> omega

theorem r_add_len_mod (cb : CircularBuffer α) (h : WF cb) :
    (cb.r + cb.len) % cb.size = cb.w := by
  obtain ⟨h1, h2, h3, _, h5⟩ := h
  unfold len
  split_ifs with hf hgt heq
  · rw [h5 hf, mod_two_cases _ _ (by omega)]
    split <;> omega
  · rw [mod_two_cases _ _ (by omega)]
    split <;> omega
  · rw [mod_two_cases _ _ (by omega)]
    split <;> omega
  · rw [mod_two_cases _ _ (by omega)]
    split <;> omega

theorem index_ne_w (cb : CircularBuffer α) (h : WF cb) (hf : cb.full = false)
    (i : Nat) (hi : i < cb.len) : (cb.r + i) % cb.size ≠ cb.w := by
  obtain ⟨h1, h2, h3, _, _⟩ := h
  simp only [len, hf, Bool.false_eq_true, if_false] at hi
  have hi2 : i < cb.size := by split_ifs at hi <;> omega
  rw [mod_two_cases _ _ (by omega)]
  split_ifs at hi <;> split <;> omega

theorem contents_length (cb : CircularBuffer α) : cb.contents.length = cb.len := by
  simp [contents]

/-! Stepping lemmas for the single pull `next`. -/

theorem next_zero (cb : CircularBuffer α) (h : cb.len = 0) : cb.next = (cb, none) := by
  simp [next, h]

theorem next_pos (cb : CircularBuffer α) (h : 0 < cb.len) :
    cb.next = (⟨cb.buffer, cb.w, (cb.r + 1) % cb.size, cb.size, false⟩,
      some (cb.buffer.getD cb.r default)) := by
  obtain ⟨k, hk⟩ : ∃ k, cb.len = k + 1 := ⟨cb.len - 1, by omega⟩
  simp [next, hk, read, r_inc, next_inc]

theorem WF_next (cb : CircularBuffer α) (hWF : WF cb) (h : 0 < cb.len) : WF cb.next.1 := by
  obtain ⟨h1, h2, h3, h4, h5⟩ := hWF
  rw [next_pos cb h]
  unfold WF
  exact ⟨h1, h2, Nat.mod_lt _ h1, h4, by simp⟩

theorem len_next (cb : CircularBuffer α) (hWF : WF cb) (h : 0 < cb.len) :
    cb.next.1.len = cb.len - 1 := by
  obtain ⟨h1, h2, h3, h4, h5⟩ := hWF
  rw [next_pos cb h]
  cases hf : cb.full with
  | true =>
    have hrw : cb.r = cb.w := h5 hf
    simp only [len, hf, Bool.false_eq_true, if_false, if_true]
    rw [mod_two_cases _ _ (by omega)]
    split_ifs <;> omega
  | false =>
    simp only [len, hf, Bool.false_eq_true, if_false] at h ⊢
    rw [mod_two_cases _ _ (by omega)]
    split_ifs at h ⊢ <;> omega

theorem contents_next (cb : CircularBuffer α) (hWF : WF cb) (h : 0 < cb.len) :
    cb.contents = cb.buffer.getD cb.r default :: cb.next.1.contents := by
  have hlen := len_next cb hWF h
  have h3 : cb.r < cb.size := hWF.2.2.1
  obtain ⟨k, hk⟩ : ∃ k, cb.len = k + 1 := ⟨cb.len - 1, by omega⟩
  rw [next_pos cb h] at hlen ⊢
  unfold contents
  rw [hk, List.range_succ_eq_map, List.map_cons, List.map_map]
  have hk2 : (⟨cb.buffer, cb.w, (cb.r + 1) % cb.size, cb.size, false⟩ :
      CircularBuffer α).len = k := by
    simpa [hk] using hlen
  rw [hk2]
  congr 1
  · simp [Nat.mod_eq_of_lt h3]
  · apply List.map_congr_left
    intro i _
    simp only [Function.comp_apply, Nat.succ_eq_add_one]
    rw [Nat.mod_add_mod]
    congr 2
    omega

/-- Common shape of the buffer state after draining `m` elements: the read
cursor advanced by `m` and the flag cleared, unless nothing moved. Both
`fill` and `_fast_fill` are proved below to land exactly on this state. -/
def advance (cb : CircularBuffer α) (m : Nat) : CircularBuffer α :=
  if m = 0 then cb else ⟨cb.buffer, cb.w, (cb.r + m) % cb.size, cb.size, false⟩

theorem advance_next (cb : CircularBuffer α) (h : 0 < cb.len) (m : Nat) :
    advance cb.next.1 m = advance cb (m + 1) := by
  rw [next_pos cb h]
  unfold advance
  rcases Nat.eq_zero_or_pos m with hm | hm
  · subst hm
    simp
  · rw [if_neg (by omega), if_neg (by omega)]
    simp only []
    congr 1
    rw [Nat.mod_add_mod]
    congr 1
    omega

theorem advance_props : ∀ (m : Nat) (cb : CircularBuffer α), WF cb → m ≤ cb.len →
    WF (advance cb m) ∧ (advance cb m).len = cb.len - m ∧
      (advance cb m).contents = cb.contents.drop m ∧
      (advance cb m).buffer = cb.buffer ∧ (advance cb m).w = cb.w ∧
      (advance cb m).size = cb.size := by
  intro m
  induction m with
  | zero =>
    intro cb hWF _
    simp [advance, hWF]
  | succ n ih =>
    intro cb hWF hm
    have h0 : 0 < cb.len := by omega
    rw [← advance_next cb h0 n]
    have hWF1 := WF_next cb hWF h0
    have hlen1 := len_next cb hWF h0
    have hcont := contents_next cb hWF h0
    have hfields : cb.next.1.buffer = cb.buffer ∧ cb.next.1.w = cb.w ∧
        cb.next.1.size = cb.size := by
      rw [next_pos cb h0]
      exact ⟨rfl, rfl, rfl⟩
    obtain ⟨w1, w2, w3, w4, w5, w6⟩ := ih cb.next.1 hWF1 (by omega)
    refine ⟨w1, by omega, ?_, by rw [w4, hfields.1], by rw [w5, hfields.2.1],
      by rw [w6, hfields.2.2]⟩
    rw [w3]
    have : cb.next.1.contents = cb.contents.drop 1 := by rw [hcont]; rfl
    rw [this, List.drop_drop]
    congr 1
    omega

/-! The reference drain `fill` computed in closed form. -/

theorem fillGo_spec : ∀ (fuel : Nat) (cb : CircularBuffer α) (vec : Vec α) (i : Nat),
    WF cb → fuel ≤ vec.cap - vec.data.length →
    fillGo fuel cb vec i =
      (advance cb (min cb.len fuel),
        ⟨vec.data ++ cb.contents.take (min cb.len fuel), vec.cap⟩,
        i + min cb.len fuel) := by
  intro fuel
  induction fuel with
  | zero =>
    intro cb vec i hWF _
    simp [fillGo, advance]
  | succ fuel ih =>
    intro cb vec i hWF hfuel
    by_cases h0 : cb.len = 0
    · have hc : cb.contents = [] := by
        have := contents_length cb
        rw [h0] at this
        exact List.length_eq_zero.mp this
      simp [fillGo, next_zero cb h0, hc, advance, h0]
    · replace h0 : 0 < cb.len := by omega
      have hnp := next_pos cb h0
      set v := cb.buffer.getD cb.r default with hv
      set c1 : CircularBuffer α :=
        ⟨cb.buffer, cb.w, (cb.r + 1) % cb.size, cb.size, false⟩ with hc1
      have hstep : fillGo (fuel + 1) cb vec i = fillGo fuel c1 (vec.push v) (i + 1) := by
        simp only [fillGo]
        rw [hnp]
      have hWFc1 : WF c1 := by
        have h := WF_next cb hWF h0
        rwa [hnp] at h
      have hlenc1 : c1.len = cb.len - 1 := by
        have h := len_next cb hWF h0
        rwa [hnp] at h
      have hcont : cb.contents = v :: c1.contents := by
        have h := contents_next cb hWF h0
        rwa [hnp] at h
      have hpush : vec.push v = ⟨vec.data ++ [v], vec.cap⟩ := by
        unfold Vec.push
        rw [if_pos (by omega)]
      have hfuel1 : fuel ≤ vec.cap - (vec.data ++ [v]).length := by
        simp only [List.length_append, List.length_singleton]
        omega
      rw [hstep, hpush, ih c1 ⟨vec.data ++ [v], vec.cap⟩ (i + 1) hWFc1 hfuel1]
      have hM : min cb.len (fuel + 1) = min c1.len fuel + 1 := by
        rw [hlenc1]
        omega
      simp only [Prod.mk.injEq]
      refine ⟨?_, ?_, by omega⟩
      · rw [hM]
        have h := advance_next cb h0 (min c1.len fuel)
        rwa [hnp] at h
      · rw [hM, hcont, List.take_succ_cons, List.append_assoc]
        rfl

theorem fill_spec (cb : CircularBuffer α) (vec : Vec α) (hWF : WF cb) :
    cb.fill vec =
      (advance cb (min cb.len (vec.cap - vec.data.length)),
        ⟨vec.data ++ cb.contents.take (min cb.len (vec.cap - vec.data.length)), vec.cap⟩,
        min cb.len (vec.cap - vec.data.length)) := by
  unfold fill
  rw [fillGo_spec (vec.cap - vec.data.length) cb vec 0 hWF (le_refl _)]
  simp

/-! The bulk-copy helper computed in closed form, and the correspondence
between `contents` and the range split. -/

theorem fvfs_noroom (cb : CircularBuffer α) (rg : Nat × Nat) (vec : Vec α)
    (h : vec.cap - vec.data.length = 0) :
    cb.fill_vector_from_split rg vec = (cb, vec, 0) := by
  unfold fill_vector_from_split
  rw [if_pos h]

theorem fvfs_empty (cb : CircularBuffer α) (rg : Nat × Nat) (vec : Vec α)
    (h : rlen rg = 0) :
    cb.fill_vector_from_split rg vec = (cb, vec, 0) := by
  unfold fill_vector_from_split
  by_cases h1 : vec.cap - vec.data.length = 0
  · rw [if_pos h1]
  · rw [if_neg h1, if_pos h]

theorem fvfs_spec (cb : CircularBuffer α) (s e : Nat) (vec : Vec α)
    (hroom : 0 < vec.cap - vec.data.length) (hse : s < e) :
    cb.fill_vector_from_split (s, e) vec =
      (⟨cb.buffer, cb.w,
          (cb.r + min (e - s) (vec.cap - vec.data.length)) % cb.size, cb.size, false⟩,
        ⟨vec.data ++
          (cb.buffer.drop s).take (min (e - s) (vec.cap - vec.data.length)), vec.cap⟩,
        min (e - s) (vec.cap - vec.data.length)) := by
  unfold fill_vector_from_split
  rw [if_neg (by omega)]
  rw [if_neg (show ¬rlen (s, e) = 0 by unfold rlen; simp only []; omega)]
  by_cases hle : rlen (s, e) ≤ vec.cap - vec.data.length
  · rw [if_pos hle]
    unfold rlen at hle ⊢
    simp only [] at hle ⊢
    rw [Nat.min_eq_left hle]
    rfl
  · rw [if_neg hle]
    unfold rlen at hle ⊢
    simp only [] at hle ⊢
    have h1 : s + (vec.cap - vec.data.length) - s = vec.cap - vec.data.length := by omega
    have h2 : min (e - s) (vec.cap - vec.data.length) = vec.cap - vec.data.length := by
      omega
    rw [h1, h2]
    rfl

theorem contents_nowrap (cb : CircularBuffer α) (hWF : WF cb) (hlt : cb.r < cb.w) :
    cb.contents = (cb.buffer.drop cb.r).take (cb.w - cb.r) := by
  obtain ⟨h1, h2, h3, h4, h5⟩ := hWF
  have hf : cb.full = false := by
    cases hfull : cb.full with
    | true => have := h5 hfull; omega
    | false => rfl
  have hlen : cb.len = cb.w - cb.r := by
    simp [len, hf, hlt]
  rw [drop_take_eq_map_getD cb.buffer (cb.w - cb.r) cb.r (by omega)]
  unfold contents
  rw [hlen]
  apply List.map_congr_left
  intro i hi
  rw [List.mem_range] at hi
  congr 1
  exact Nat.mod_eq_of_lt (by omega)

theorem len_wrap (cb : CircularBuffer α) (hWF : WF cb)
    (hcase : cb.w < cb.r ∨ (cb.r = cb.w ∧ cb.full = true)) :
    cb.len = (cb.size - cb.r) + cb.w := by
  obtain ⟨h1, h2, h3, h4, h5⟩ := hWF
  rcases hcase with hlt | ⟨heq, hfull⟩
  · have hf : cb.full = false := by
      cases hfull : cb.full with
      | true => have := h5 hfull; omega
      | false => rfl
    simp only [len, hf, Bool.false_eq_true, if_false]
    split_ifs <;> omega
  · simp only [len, hfull, if_true]
    omega

theorem contents_wrap (cb : CircularBuffer α) (hWF : WF cb)
    (hcase : cb.w < cb.r ∨ (cb.r = cb.w ∧ cb.full = true)) :
    cb.contents = (cb.buffer.drop cb.r).take (cb.size - cb.r) ++ cb.buffer.take cb.w := by
  have hlen := len_wrap cb hWF hcase
  obtain ⟨h1, h2, h3, h4, h5⟩ := hWF
  unfold contents
  rw [hlen, List.range_add, List.map_append, List.map_map]
  congr 1
  · rw [drop_take_eq_map_getD cb.buffer (cb.size - cb.r) cb.r (by omega)]
    apply List.map_congr_left
    intro i hi
    rw [List.mem_range] at hi
    congr 1
    exact Nat.mod_eq_of_lt (by omega)
  · have : cb.buffer.take cb.w = (cb.buffer.drop 0).take cb.w := by
      rw [List.drop_zero]
    rw [this, drop_take_eq_map_getD cb.buffer cb.w 0 (by omega)]
    apply List.map_congr_left
    intro i hi
    rw [List.mem_range] at hi
    simp only [Function.comp_apply, Nat.zero_add]
    have : cb.r + (cb.size - cb.r + i) = cb.size + i := by omega
    rw [this, Nat.add_mod_left]
    congr 1
    exact Nat.mod_eq_of_lt (by omega)

/-! Equivalence of the bulk-copy drain with the reference drain. -/

theorem fast_fill_wrap_aux (cb : CircularBuffer α) (vec : Vec α) (hWF : WF cb)
    (hsplit : cb.split_in_ranges = ((cb.r, cb.size), some (0, cb.w)))
    (hlen : cb.len = (cb.size - cb.r) + cb.w)
    (hcont : cb.contents = (cb.buffer.drop cb.r).take (cb.size - cb.r) ++ cb.buffer.take cb.w)
    (hroom : 0 < vec.cap - vec.data.length) :
    cb._fast_fill vec = cb.fill vec := by
  obtain ⟨h1, h2, h3, h4, h5⟩ := hWF
  have hA : ((cb.buffer.drop cb.r).take (cb.size - cb.r)).length = cb.size - cb.r := by
    simp [List.length_take, List.length_drop, h4]
  have hlen0 : 0 < cb.len := by omega
  rw [fill_spec cb vec ⟨h1, h2, h3, h4, h5⟩]
  unfold _fast_fill
  rw [if_neg (by omega : ¬cb.len = 0), if_neg (by omega : ¬vec.cap - vec.data.length = 0)]
  simp only [hsplit, fvfs_spec cb cb.r cb.size vec hroom h3]
  by_cases hp : min (cb.size - cb.r) (vec.cap - vec.data.length) = vec.cap - vec.data.length
  · rw [if_pos hp]
    have hm : min cb.len (vec.cap - vec.data.length) = vec.cap - vec.data.length := by
      omega
    have hz : vec.cap - vec.data.length - (cb.size - cb.r) = 0 := by omega
    have hmin2 : (vec.cap - vec.data.length) ⊓ (cb.size - cb.r)
        = vec.cap - vec.data.length := by omega
    have hlist : cb.contents.take (vec.cap - vec.data.length)
        = (cb.buffer.drop cb.r).take (vec.cap - vec.data.length) := by
      rw [hcont, List.take_append_eq_append_take, hA, hz, List.take_zero,
        List.append_nil, List.take_take, hmin2]
    rw [hm, hp, hlist]
    unfold advance
    rw [if_neg (by omega)]
  · rw [if_neg hp]
    have hp1 : min (cb.size - cb.r) (vec.cap - vec.data.length) = cb.size - cb.r := by
      omega
    have hk1room : cb.size - cb.r < vec.cap - vec.data.length := by omega
    rw [hp1]
    have hlen1 : (vec.data ++ (cb.buffer.drop cb.r).take (cb.size - cb.r)).length
        = vec.data.length + (cb.size - cb.r) := by
      rw [List.length_append, hA]
    by_cases hw0 : cb.w = 0
    · have hfe := fvfs_empty
        (⟨cb.buffer, cb.w, (cb.r + (cb.size - cb.r)) % cb.size, cb.size, false⟩ :
          CircularBuffer α) (0, cb.w)
        (⟨vec.data ++ (cb.buffer.drop cb.r).take (cb.size - cb.r), vec.cap⟩ : Vec α)
        (by unfold rlen; simp only []; omega)
      simp only [hfe, Nat.add_zero]
      have hm : min cb.len (vec.cap - vec.data.length) = cb.size - cb.r := by omega
      have hlist : cb.contents.take (cb.size - cb.r)
          = (cb.buffer.drop cb.r).take (cb.size - cb.r) := by
        rw [hcont, hw0, List.take_zero, List.append_nil,
          List.take_of_length_le (le_of_eq hA)]
      rw [hm, hlist]
      unfold advance
      rw [if_neg (by omega)]
    · have hwpos : 0 < cb.w := by omega
      have hroom1 : 0 < vec.cap - (vec.data ++
          (cb.buffer.drop cb.r).take (cb.size - cb.r)).length := by
        rw [hlen1]
        omega
      have hfs := fvfs_spec
        (⟨cb.buffer, cb.w, (cb.r + (cb.size - cb.r)) % cb.size, cb.size, false⟩ :
          CircularBuffer α) 0 cb.w
        (⟨vec.data ++ (cb.buffer.drop cb.r).take (cb.size - cb.r), vec.cap⟩ : Vec α)
        hroom1 hwpos
      simp only [hfs]
      simp only [Nat.sub_zero, List.drop_zero, hlen1]
      have hp2 : min cb.w (vec.cap - (vec.data.length + (cb.size - cb.r)))
          = min cb.w (vec.cap - vec.data.length - (cb.size - cb.r)) := by
        congr 1
        omega
      have hm : min cb.len (vec.cap - vec.data.length)
          = (cb.size - cb.r) + min cb.w (vec.cap - vec.data.length - (cb.size - cb.r)) := by
        omega
      have hmod : ((cb.r + (cb.size - cb.r)) % cb.size
            + min cb.w (vec.cap - vec.data.length - (cb.size - cb.r))) % cb.size
          = (cb.r + ((cb.size - cb.r)
            + min cb.w (vec.cap - vec.data.length - (cb.size - cb.r)))) % cb.size := by
        rw [Nat.mod_add_mod]
        congr 1
        omega
      have hsub : (cb.size - cb.r)
            + min cb.w (vec.cap - vec.data.length - (cb.size - cb.r)) - (cb.size - cb.r)
          = min cb.w (vec.cap - vec.data.length - (cb.size - cb.r)) := by omega
      have hmin2 : min cb.w (vec.cap - vec.data.length - (cb.size - cb.r)) ⊓ cb.w
          = min cb.w (vec.cap - vec.data.length - (cb.size - cb.r)) := by omega
      have hlist : cb.contents.take ((cb.size - cb.r)
            + min cb.w (vec.cap - vec.data.length - (cb.size - cb.r)))
          = (cb.buffer.drop cb.r).take (cb.size - cb.r)
            ++ cb.buffer.take (min cb.w (vec.cap - vec.data.length - (cb.size - cb.r))) := by
        rw [hcont, List.take_append_eq_append_take, hA,
          List.take_of_length_le (by rw [hA]; omega), hsub, List.take_take, hmin2]
      rw [hp2, hm, hmod, hlist]
      unfold advance
      rw [if_neg (by omega)]
      rw [List.append_assoc]

theorem fast_fill_spec (cb : CircularBuffer α) (vec : Vec α) (hWF : WF cb) :
    cb._fast_fill vec = cb.fill vec := by
  by_cases h0 : cb.len = 0
  · have hc : cb.contents = [] := by
      have := contents_length cb
      rw [h0] at this
      exact List.length_eq_zero.mp this
    rw [fill_spec cb vec hWF]
    unfold _fast_fill
    rw [if_pos h0]
    simp [advance, h0, hc]
  · by_cases hroom : vec.cap - vec.data.length = 0
    · rw [fill_spec cb vec hWF]
      unfold _fast_fill
      rw [if_neg h0, if_pos hroom]
      simp [advance, hroom]
    · obtain ⟨h1, h2, h3, h4, h5⟩ := hWF
      rcases Nat.lt_trichotomy cb.r cb.w with hlt | heq | hgt
      · -- occupied region is a single contiguous range
        have hsplit : cb.split_in_ranges = ((cb.r, cb.w), none) := by
          unfold split_in_ranges
          rw [if_pos hlt]
        have hcont := contents_nowrap cb ⟨h1, h2, h3, h4, h5⟩ hlt
        have hf : cb.full = false := by
          cases hfull : cb.full with
          | true => have := h5 hfull; omega
          | false => rfl
        have hlen : cb.len = cb.w - cb.r := by simp [len, hf, hlt]
        rw [fill_spec cb vec ⟨h1, h2, h3, h4, h5⟩]
        unfold _fast_fill
        rw [if_neg h0, if_neg hroom]
        simp only [hsplit, fvfs_spec cb cb.r cb.w vec (by omega) hlt]
        have hm : min cb.len (vec.cap - vec.data.length)
            = min (cb.w - cb.r) (vec.cap - vec.data.length) := by rw [hlen]
        have hmin2 : min (cb.w - cb.r) (vec.cap - vec.data.length) ⊓ (cb.w - cb.r)
            = min (cb.w - cb.r) (vec.cap - vec.data.length) := by omega
        have hlist : cb.contents.take (min (cb.w - cb.r) (vec.cap - vec.data.length))
            = (cb.buffer.drop cb.r).take
              (min (cb.w - cb.r) (vec.cap - vec.data.length)) := by
          rw [hcont, List.take_take, hmin2]
        by_cases hp : min (cb.w - cb.r) (vec.cap - vec.data.length)
            = vec.cap - vec.data.length
        · rw [if_pos hp, hm, hlist]
          unfold advance
          rw [if_neg (by omega)]
        · rw [if_neg hp, hm, hlist]
          unfold advance
          rw [if_neg (by omega)]
      · -- cursors equal with elements present: the buffer is completely full
        have hfull : cb.full = true := by
          cases hfull : cb.full with
          | true => rfl
          | false => simp [len, hfull, heq] at h0
        have hsplit : cb.split_in_ranges = ((cb.r, cb.size), some (0, cb.w)) := by
          unfold split_in_ranges
          rw [if_neg (by omega), if_pos heq, if_pos hfull]
        exact fast_fill_wrap_aux cb vec ⟨h1, h2, h3, h4, h5⟩ hsplit
          (len_wrap cb ⟨h1, h2, h3, h4, h5⟩ (Or.inr ⟨heq, hfull⟩))
          (contents_wrap cb ⟨h1, h2, h3, h4, h5⟩ (Or.inr ⟨heq, hfull⟩)) (by omega)
      · -- wrap-around with a partially occupied buffer
        have hsplit : cb.split_in_ranges = ((cb.r, cb.size), some (0, cb.w)) := by
          unfold split_in_ranges
          rw [if_neg (by omega), if_neg (by omega)]
        exact fast_fill_wrap_aux cb vec ⟨h1, h2, h3, h4, h5⟩ hsplit
          (len_wrap cb ⟨h1, h2, h3, h4, h5⟩ (Or.inl hgt))
          (contents_wrap cb ⟨h1, h2, h3, h4, h5⟩ (Or.inl hgt)) (by omega)

/-! The producer path `push` computed in closed form. -/

theorem push_full_eq (cb : CircularBuffer α) (v : α) (hf : cb.full = true)
    (hrw : cb.r = cb.w) :
    cb.push v = (⟨cb.buffer.set cb.w v, (cb.w + 1) % cb.size, (cb.w + 1) % cb.size,
      cb.size, true⟩, 0) := by
  unfold push dropAtW r_inc write w_inc next_inc
  simp [hf, hrw]

theorem push_notfull_eq_cursor (cb : CircularBuffer α) (v : α) (hf : cb.full = false)
    (heq : (cb.w + 1) % cb.size = cb.r) :
    cb.push v = (⟨cb.buffer.set cb.w v, (cb.w + 1) % cb.size, cb.r, cb.size, true⟩, 0) := by
  unfold push dropAtW r_inc write w_inc next_inc
  simp [hf, heq]

theorem push_notfull_ne_cursor (cb : CircularBuffer α) (v : α) (hf : cb.full = false)
    (hne : ¬(cb.w + 1) % cb.size = cb.r) :
    cb.push v = (⟨cb.buffer.set cb.w v, (cb.w + 1) % cb.size, cb.r, cb.size, false⟩,
      cb.size - (⟨cb.buffer.set cb.w v, (cb.w + 1) % cb.size, cb.r, cb.size, false⟩ :
        CircularBuffer α).len) := by
  unfold push dropAtW r_inc write w_inc next_inc
  simp [hf, hne]

theorem len_eq_of_cursor_eq (cb : CircularBuffer α) (hWF : WF cb) (hf : cb.full = false)
    (heq : (cb.w + 1) % cb.size = cb.r) : cb.len = cb.size - 1 := by
  have hlt := len_lt_size cb hWF hf
  have e1 := r_add_len_mod cb hWF
  obtain ⟨h1, h2, h3, h4, h5⟩ := hWF
  rw [mod_two_cases _ _ (by omega)] at e1
  rw [mod_two_cases _ _ (by omega)] at heq
  split_ifs at e1 heq <;> omega

theorem len_set_ne_cursor (cb : CircularBuffer α) (v : α) (hWF : WF cb)
    (hf : cb.full = false) (hne : ¬(cb.w + 1) % cb.size = cb.r) :
    (⟨cb.buffer.set cb.w v, (cb.w + 1) % cb.size, cb.r, cb.size, false⟩ :
      CircularBuffer α).len = cb.len + 1 := by
  have hlt := len_lt_size cb hWF hf
  have e1 := r_add_len_mod cb hWF
  obtain ⟨h1, h2, h3, h4, h5⟩ := hWF
  rw [mod_two_cases _ _ (by omega)] at e1
  rw [mod_two_cases _ _ (by omega)] at hne
  simp only [len, hf, Bool.false_eq_true, if_false]
  rw [mod_two_cases _ _ (by omega)]
  split_ifs at e1 hne ⊢ <;> omega

theorem contents_after_set_full (cb : CircularBuffer α) (hWF : WF cb)
    (hf : cb.full = true) (hrw : cb.r = cb.w) (v : α) :
    (⟨cb.buffer.set cb.w v, (cb.w + 1) % cb.size, (cb.w + 1) % cb.size,
        cb.size, true⟩ : CircularBuffer α).contents
      = cb.contents.drop 1 ++ [v] := by
  obtain ⟨h1, h2, h3, h4, h5⟩ := hWF
  have hlen : cb.len = cb.size := by simp [len, hf]
  have hrec : (⟨cb.buffer.set cb.w v, (cb.w + 1) % cb.size, (cb.w + 1) % cb.size,
      cb.size, true⟩ : CircularBuffer α).len = cb.size := by simp [len]
  obtain ⟨k, hk⟩ : ∃ k, cb.size = k + 1 := ⟨cb.size - 1, by omega⟩
  have hRHS : cb.contents.drop 1
      = List.map (fun i => cb.buffer.getD ((cb.r + (i + 1)) % cb.size) default)
        (List.range k) := by
    unfold contents
    rw [hlen]
    rw [show List.range cb.size = 0 :: List.map Nat.succ (List.range k) from by
      rw [hk, List.range_succ_eq_map]]
    rw [List.map_cons, List.map_map, List.drop_succ_cons, List.drop_zero]
    apply List.map_congr_left
    intro i _
    simp only [Function.comp_apply, Nat.succ_eq_add_one]
  have hLHS : (⟨cb.buffer.set cb.w v, (cb.w + 1) % cb.size, (cb.w + 1) % cb.size,
      cb.size, true⟩ : CircularBuffer α).contents
      = List.map (fun i =>
          (cb.buffer.set cb.w v).getD (((cb.w + 1) % cb.size + i) % cb.size) default)
        (List.range cb.size) := by
    unfold contents
    rw [hrec]
  rw [hLHS, hRHS]
  rw [show List.range cb.size = List.range k ++ [k] from by rw [hk, List.range_succ]]
  rw [List.map_append, List.map_singleton]
  congr 1
  · apply List.map_congr_left
    intro i hi
    rw [List.mem_range] at hi
    have hix : ((cb.w + 1) % cb.size + i) % cb.size = (cb.r + (i + 1)) % cb.size := by
      rw [Nat.mod_add_mod]
      congr 1
      omega
    rw [hix]
    apply getD_set_ne
    intro hcontra
    rw [mod_two_cases _ _ (by omega)] at hcontra
    split_ifs at hcontra <;> omega
  · have hix : ((cb.w + 1) % cb.size + k) % cb.size = cb.w := by
      rw [Nat.mod_add_mod]
      have he : cb.w + 1 + k = cb.w + cb.size := by omega
      rw [he, Nat.add_mod_right]
      exact Nat.mod_eq_of_lt h2
    rw [hix, getD_set_self _ _ (by omega)]

theorem contents_after_set (cb : CircularBuffer α) (hWF : WF cb) (hf : cb.full = false)
    (v : α) (w2 : Nat) (fl : Bool)
    (hL : (⟨cb.buffer.set cb.w v, w2, cb.r, cb.size, fl⟩ : CircularBuffer α).len
      = cb.len + 1) :
    (⟨cb.buffer.set cb.w v, w2, cb.r, cb.size, fl⟩ : CircularBuffer α).contents
      = cb.contents ++ [v] := by
  have hw := r_add_len_mod cb hWF
  have hwlt : cb.w < cb.buffer.length := by
    rw [hWF.2.2.2.1]
    exact hWF.2.1
  unfold contents
  rw [hL, List.range_succ, List.map_append, List.map_singleton]
  congr 1
  · apply List.map_congr_left
    intro i hi
    rw [List.mem_range] at hi
    simp only []
    exact getD_set_ne _ _ _ (Ne.symm (index_ne_w cb hWF hf i hi)) _ _
  · simp only [hw]
    rw [getD_set_self _ _ hwlt]

theorem push_spec (cb : CircularBuffer α) (v : α) (hWF : WF cb) :
    WF (cb.push v).1 ∧ (cb.push v).1.size = cb.size ∧
      (cb.push v).1.len = min (cb.len + 1) cb.size ∧
      (cb.push v).2 = cb.size - (cb.push v).1.len ∧
      (cb.push v).1.contents
        = (if cb.len = cb.size then cb.contents.drop 1 else cb.contents) ++ [v] := by
  have hWF2 := hWF
  obtain ⟨h1, h2, h3, h4, h5⟩ := hWF2
  cases hf : cb.full with
  | true =>
    have hrw := h5 hf
    have hlen : cb.len = cb.size := by simp [len, hf]
    have hres := push_full_eq cb v hf hrw
    rw [hres]
    have hfull2 : (⟨cb.buffer.set cb.w v, (cb.w + 1) % cb.size, (cb.w + 1) % cb.size,
        cb.size, true⟩ : CircularBuffer α).len = cb.size := by simp [len]
    refine ⟨⟨h1, Nat.mod_lt _ h1, Nat.mod_lt _ h1, by simp [List.length_set, h4],
      fun _ => rfl⟩, rfl, ?_, ?_, ?_⟩
    · rw [hfull2, hlen]
      omega
    · rw [hfull2]
      omega
    · rw [if_pos hlen]
      exact contents_after_set_full cb hWF hf hrw v
  | false =>
    by_cases heq : (cb.w + 1) % cb.size = cb.r
    · have hlen := len_eq_of_cursor_eq cb hWF hf heq
      have hres := push_notfull_eq_cursor cb v hf heq
      rw [hres]
      have hfull2 : (⟨cb.buffer.set cb.w v, (cb.w + 1) % cb.size, cb.r,
          cb.size, true⟩ : CircularBuffer α).len = cb.size := by simp [len]
      refine ⟨⟨h1, Nat.mod_lt _ h1, h3, by simp [List.length_set, h4],
        fun _ => heq.symm⟩, rfl, ?_, ?_, ?_⟩
      · rw [hfull2, hlen]
        omega
      · rw [hfull2]
        omega
      · rw [if_neg (by omega)]
        exact contents_after_set cb hWF hf v _ _ (by rw [hfull2]; omega)
    · have hres := push_notfull_ne_cursor cb v hf heq
      have hL := len_set_ne_cursor cb v hWF hf heq
      have hlt := len_lt_size cb hWF hf
      rw [hres]
      refine ⟨⟨h1, Nat.mod_lt _ h1, h3, by simp [List.length_set, h4],
        by simp⟩, rfl, ?_, ?_, ?_⟩
      · rw [hL]
        omega
      · rfl
      · rw [if_neg (by omega)]
        exact contents_after_set cb hWF hf v _ _ hL

/-! Facts about freshly constructed buffers and repeated pushes. -/

theorem WF_new (n : Nat) (hn : 0 < n) : WF (new n : CircularBuffer α) := by
  unfold WF new
  simp [hn]

theorem len_new (n : Nat) : (new n : CircularBuffer α).len = 0 := by
  cases n <;> simp [len, new]

theorem contents_new (n : Nat) : (new n : CircularBuffer α).contents = [] := by
  unfold contents
  rw [len_new]
  rfl

theorem pushAll_nil (cb : CircularBuffer α) : cb.pushAll [] = cb := rfl

theorem pushAll_cons (cb : CircularBuffer α) (v : α) (vs : List α) :
    cb.pushAll (v :: vs) = (cb.push v).1.pushAll vs := rfl

theorem pushAll_spec : ∀ (vs : List α) (cb : CircularBuffer α), WF cb →
    WF (cb.pushAll vs) ∧ (cb.pushAll vs).size = cb.size ∧
      (cb.pushAll vs).len = min (cb.len + vs.length) cb.size ∧
      (cb.pushAll vs).contents
        = (cb.contents ++ vs).drop ((cb.len + vs.length) - cb.size) := by
  intro vs
  induction vs with
  | nil =>
    intro cb hWF
    have hle := len_le_size cb hWF
    have hz : cb.len + ([] : List α).length - cb.size = 0 := by
      simp only [List.length_nil]
      omega
    refine ⟨hWF, rfl, ?_, by rw [pushAll_nil, hz]; simp⟩
    rw [pushAll_nil]
    simp only [List.length_nil, Nat.add_zero]
    omega
  | cons v vs ih =>
    intro cb hWF
    have hle := len_le_size cb hWF
    have hsz : 0 < cb.size := hWF.1
    obtain ⟨p1, p2, p3, p4, p5⟩ := push_spec cb v hWF
    obtain ⟨q1, q2, q3, q4⟩ := ih (cb.push v).1 p1
    rw [pushAll_cons]
    have hclen := contents_length cb
    refine ⟨q1, by rw [q2, p2], ?_, ?_⟩
    · rw [q3, p3, p2]
      simp only [List.length_cons]
      omega
    · rw [q4, p5, p3, p2]
      by_cases hfull : cb.len = cb.size
      · rw [if_pos hfull]
        have h1 : (cb.contents.drop 1 ++ [v]) ++ vs = (cb.contents ++ v :: vs).drop 1 := by
          rw [List.drop_append_eq_append_drop, hclen,
            Nat.sub_eq_zero_of_le (by omega), List.drop_zero, List.append_assoc]
          rfl
        rw [h1, List.drop_drop]
        congr 1
        simp only [List.length_cons]
        omega
      · rw [if_neg hfull]
        rw [List.append_assoc]
        congr 1
        simp only [List.length_cons]
        omega

/-! Reachable states: every state produced from a constructed buffer by the
public operations. -/

inductive Reachable {β : Type} [Inhabited β] : CircularBuffer β → Prop
  | base (n : Nat) (hn : 0 < n) : Reachable (new n)
  | push_step (cb : CircularBuffer β) (v : β) : Reachable cb → Reachable (cb.push v).1
  | next_step (cb : CircularBuffer β) : Reachable cb → Reachable cb.next.1
  | fill_step (cb : CircularBuffer β) (vec : Vec β) :
      Reachable cb → Reachable (cb.fill vec).1
  | ffill_step (cb : CircularBuffer β) (vec : Vec β) :
      Reachable cb → Reachable (cb._fast_fill vec).1

theorem WF_fill (cb : CircularBuffer α) (vec : Vec α) (hWF : WF cb) :
    WF (cb.fill vec).1 := by
  rw [fill_spec cb vec hWF]
  exact (advance_props _ cb hWF (Nat.min_le_left _ _)).1

theorem Reachable_WF (cb : CircularBuffer α) (h : Reachable cb) : WF cb := by
  induction h with
  | base n hn => exact WF_new n hn
  | push_step cb v _ ih => exact (push_spec cb v ih).1
  | next_step cb _ ih =>
    by_cases h0 : cb.len = 0
    · rw [next_zero cb h0]
      exact ih
    · exact WF_next cb ih (by omega)
  | fill_step cb vec _ ih => exact WF_fill cb vec ih
  | ffill_step cb vec _ ih =>
    rw [fast_fill_spec cb vec ih]
    exact WF_fill cb vec ih

/-! Duplication: the clone copies exactly the occupied slots. -/

theorem foldl_set_getD (src : List α) :
    ∀ (k s : Nat) (dst : List α), s + k ≤ dst.length → ∀ j,
      ((List.range' s k).foldl (fun acc i => acc.set i (src.getD i default)) dst).getD
          j default
        = if s ≤ j ∧ j < s + k then src.getD j default else dst.getD j default := by
  intro k
  induction k with
  | zero =>
    intro s dst h j
    rw [if_neg (by omega)]
    rfl
  | succ n ih =>
    intro s dst h j
    rw [List.range'_succ, List.foldl_cons]
    rw [ih (s + 1) (dst.set s (src.getD s default)) (by rw [List.length_set]; omega) j]
    split_ifs with h1 h2 h2
    · rfl
    · omega
    · have hj : j = s := by omega
      subst hj
      exact getD_set_self _ _ (by omega) _ _
    · exact getD_set_ne _ _ _ (by omega) _ _

theorem foldl_set_length (src : List α) :
    ∀ (l : List Nat) (dst : List α),
      (l.foldl (fun acc i => acc.set i (src.getD i default)) dst).length = dst.length := by
  intro l
  induction l with
  | nil => intro dst; rfl
  | cons x xs ih =>
    intro dst
    rw [List.foldl_cons, ih, List.length_set]

theorem copyRange_getD (src : List α) (s e : Nat) (dst : List α)
    (h : e ≤ dst.length) (j : Nat) :
    (copyRange src (s, e) dst).getD j default
      = if s ≤ j ∧ j < e then src.getD j default else dst.getD j default := by
  unfold copyRange rlen
  by_cases hse : s ≤ e
  · rw [foldl_set_getD src (e - s) s dst (by omega) j]
    by_cases hj : s ≤ j ∧ j < e
    · rw [if_pos (by omega), if_pos hj]
    · rw [if_neg (by omega), if_neg hj]
  · have hz : e - s = 0 := by omega
    rw [hz]
    rw [if_neg (by omega)]
    rfl

theorem copyRange_length (src : List α) (rg : Nat × Nat) (dst : List α) :
    (copyRange src rg dst).length = dst.length :=
  foldl_set_length src _ dst

theorem clone_fields (cb : CircularBuffer α) :
    (cb.clone).w = cb.w ∧ (cb.clone).r = cb.r ∧ (cb.clone).size = cb.size ∧
      (cb.clone).full = cb.full := by
  unfold clone
  rcases hs : cb.split_in_ranges with ⟨r1, r2⟩
  cases r2 <;> simp [hs, new]

theorem len_clone (cb : CircularBuffer α) : (cb.clone).len = cb.len := by
  obtain ⟨hw, hr, hs, hf⟩ := clone_fields cb
  unfold len
  rw [hw, hr, hs, hf]

theorem clone_buffer_nowrap (cb : CircularBuffer α) (r1 : Nat × Nat)
    (hs : cb.split_in_ranges = (r1, none)) :
    (cb.clone).buffer = copyRange cb.buffer r1 (List.replicate cb.size default) := by
  unfold clone new
  rw [hs]

theorem clone_buffer_wrap (cb : CircularBuffer α) (r1 r2 : Nat × Nat)
    (hs : cb.split_in_ranges = (r1, some r2)) :
    (cb.clone).buffer
      = copyRange cb.buffer r2 (copyRange cb.buffer r1 (List.replicate cb.size default)) := by
  unfold clone new
  rw [hs]

theorem contents_clone (cb : CircularBuffer α) (hWF : WF cb) :
    (cb.clone).contents = cb.contents := by
  have hWF2 := hWF
  obtain ⟨h1, h2, h3, h4, h5⟩ := hWF2
  have hfields := clone_fields cb
  unfold contents
  rw [len_clone, hfields.2.1, hfields.2.2.1]
  apply List.map_congr_left
  intro i hi
  rw [List.mem_range] at hi
  rcases Nat.lt_trichotomy cb.r cb.w with hlt | heq | hgt
  · -- single contiguous range [r, w)
    have hf : cb.full = false := by
      cases hfull : cb.full with
      | true => have := h5 hfull; omega
      | false => rfl
    have hlen : cb.len = cb.w - cb.r := by simp [len, hf, hlt]
    have hs : cb.split_in_ranges = ((cb.r, cb.w), none) := by
      unfold split_in_ranges
      rw [if_pos hlt]
    rw [clone_buffer_nowrap cb _ hs]
    rw [copyRange_getD cb.buffer cb.r cb.w _ (by rw [List.length_replicate]; omega) _]
    rw [Nat.mod_eq_of_lt (by omega)]
    rw [if_pos (by omega)]
  · -- cursors equal: either empty (no live index) or completely full
    cases hfull : cb.full with
    | false =>
      have hlen : cb.len = 0 := by simp [len, hfull, heq]
      omega
    | true =>
      have hlen : cb.len = cb.size := by simp [len, hfull]
      have hs : cb.split_in_ranges = ((cb.r, cb.size), some (0, cb.w)) := by
        unfold split_in_ranges
        rw [if_neg (by omega), if_pos heq, if_pos hfull]
      rw [clone_buffer_wrap cb _ _ hs]
      have hlenrep : (copyRange cb.buffer (cb.r, cb.size)
          (List.replicate cb.size default)).length = cb.size := by
        rw [copyRange_length, List.length_replicate]
      rw [copyRange_getD cb.buffer 0 cb.w _ (by rw [hlenrep]; omega) _]
      by_cases hio : cb.r + i < cb.size
      · rw [Nat.mod_eq_of_lt hio]
        rw [if_neg (by omega)]
        rw [copyRange_getD cb.buffer cb.r cb.size _
          (by rw [List.length_replicate]) _]
        rw [if_pos (by omega)]
      · have hmod : (cb.r + i) % cb.size = cb.r + i - cb.size := by
          rw [mod_two_cases _ _ (by omega), if_neg (by omega)]
        rw [hmod]
        rw [if_pos (by omega)]
  · -- wrap-around with a partially occupied buffer
    have hf : cb.full = false := by
      cases hfull : cb.full with
      | true => have := h5 hfull; omega
      | false => rfl
    have hlen : cb.len = cb.size - cb.r + cb.w := by
      simp only [len, hf, Bool.false_eq_true, if_false]
      split_ifs <;> omega
    have hs : cb.split_in_ranges = ((cb.r, cb.size), some (0, cb.w)) := by
      unfold split_in_ranges
      rw [if_neg (by omega), if_neg (by omega)]
    rw [clone_buffer_wrap cb _ _ hs]
    have hlenrep : (copyRange cb.buffer (cb.r, cb.size)
        (List.replicate cb.size default)).length = cb.size := by
      rw [copyRange_length, List.length_replicate]
    rw [copyRange_getD cb.buffer 0 cb.w _ (by rw [hlenrep]; omega) _]
    by_cases hio : cb.r + i < cb.size
    · rw [Nat.mod_eq_of_lt hio]
      rw [if_neg (by omega)]
      rw [copyRange_getD cb.buffer cb.r cb.size _
        (by rw [List.length_replicate]) _]
      rw [if_pos (by omega)]
    · have hmod : (cb.r + i) % cb.size = cb.r + i - cb.size := by
        rw [mod_two_cases _ _ (by omega), if_neg (by omega)]
      rw [hmod]
      rw [if_pos (by omega)]

theorem WF_clone (cb : CircularBuffer α) (hWF : WF cb) : WF (cb.clone) := by
  obtain ⟨h1, h2, h3, h4, h5⟩ := hWF
  obtain ⟨hw, hr, hs, hf⟩ := clone_fields cb
  have hb : (cb.clone).buffer.length = cb.size := by
    rcases hsp : cb.split_in_ranges with ⟨r1, r2⟩
    cases r2 with
    | none =>
      rw [clone_buffer_nowrap cb _ hsp, copyRange_length, List.length_replicate]
    | some r2 =>
      rw [clone_buffer_wrap cb _ _ hsp, copyRange_length, copyRange_length,
        List.length_replicate]
  exact ⟨by omega, by omega, by omega, by rw [hb, hs], fun hfl => by
    rw [hr, hw]
    exact h5 (by rw [← hf]; exact hfl)⟩

end CircularBuffer

/-! Construction-time failure behaviour (64-bit target, element type `u32`). -/

/-- Largest `usize` value on the 64-bit target. -/
def usizeMax : Nat := 2 ^ 64 - 1

/-- Largest `isize` value on the 64-bit target. -/
def isizeMax : Nat := 2 ^ 63 - 1

/-- Models the fallible prelude of `new` for element type `u32` (size 4,
align 4): `size_of::<T>().checked_mul(size).unwrap()` panics iff the product
exceeds `usize::MAX`, and `Layout::from_size_align(vector_size, 4).unwrap()`
fails iff the byte size exceeds `isize::MAX` minus the alignment padding.
Returns `true` iff construction itself panics. -/
def new_aborts_u32 (size : Nat) : Bool :=
  decide (usizeMax < 4 * size) || decide (isizeMax - 3 < 4 * size)

/-- Models a `push` call with the Rust remainder-by-zero panic made explicit:
`next_inc` computes `(i + 1) % self.size` and the Rust `%` operator panics when
`self.size = 0` (Lean Nat.mod totalizes it instead), so `none` models that
panic on a zero-capacity buffer. -/
def push_checked {α : Type} [Inhabited α] (cb : CircularBuffer α) (v : α) :
    Option (CircularBuffer α × Nat) :=
  if cb.size = 0 then none else some (cb.push v)

/-! Pointer-level model: the struct holds a raw pointer, so a bitwise copy of
the struct duplicates the pointer, not the storage. -/

/-- Heap for the pointer-level model: allocation ids index blocks of slots. -/
structure Heap (α : Type) where
  blocks : List (List α)
deriving Repr, DecidableEq

/-- Allocate a fresh block: its id is distinct from every existing id. -/
def Heap.alloc {α : Type} (h : Heap α) (block : List α) : Nat × Heap α :=
  (h.blocks.length, ⟨h.blocks ++ [block]⟩)

/-- Read the slot `i` of the block pointed to by `p`. -/
def Heap.readSlot {α : Type} [Inhabited α] (h : Heap α) (p i : Nat) : α :=
  (h.blocks.getD p []).getD i default

/-- Write the slot `i` of the block pointed to by `p`. -/
def Heap.writeSlot {α : Type} (h : Heap α) (p i : Nat) (v : α) : Heap α :=
  ⟨h.blocks.set p ((h.blocks.getD p []).set i v)⟩

/-- The `CircularBuffer` struct at the pointer level: the `buffer` field is the
raw pointer (an allocation id), exactly the five struct fields of
src/lib.rs lines 109-118. -/
structure RawCircularBuffer where
  buffer : Nat
  w : Nat
  r : Nat
  size : Nat
  full : Bool
deriving Repr, DecidableEq

/-- `new` at the pointer level: allocates a fresh zeroed block and stores the
pointer to it in the struct. -/
def rawNew (α : Type) [Inhabited α] (size : Nat) (h : Heap α) :
    RawCircularBuffer × Heap α :=
  let (p, h) := h.alloc (List.replicate size default)
  ({ buffer := p, w := 0, r := 0, size := size, full := false }, h)

/-- Model of the derived `Copy` instance on the struct (src/lib.rs line 109):
a bitwise copy duplicates every field verbatim, including the raw `buffer`
pointer field. -/
def deriveCopy (cb : RawCircularBuffer) : RawCircularBuffer := cb

/-- The `write` method at the pointer level (src/lib.rs lines 174-180): store
the value through the raw pointer at the write cursor, then advance it. -/
def rawWrite {α : Type} (cb : RawCircularBuffer) (hp : Heap α) (v : α) :
    RawCircularBuffer × Heap α :=
  ({ cb with w := (cb.w + 1) % cb.size }, hp.writeSlot cb.buffer cb.w v)

open CircularBuffer

/-! The claims. -/

/-- C1: for every well-formed buffer state and every sink, `fill` appends
exactly `min (len, sink room)` values to the sink, oldest-first in original
push order, removes exactly that many from the buffer (the remaining contents
are the untouched newest values and `len` drops by the moved count), and
returns the moved count; in particular nothing moves when the sink has no room
or the buffer is empty. -/
theorem C1_fill_moves_min {α : Type} [Inhabited α] (cb : CircularBuffer α)
    (vec : Vec α) (hWF : WF cb) :
    (cb.fill vec).2.2 = min cb.len (vec.cap - vec.data.length) ∧
    (cb.fill vec).2.1.data
      = vec.data ++ cb.contents.take (min cb.len (vec.cap - vec.data.length)) ∧
    (cb.fill vec).1.contents
      = cb.contents.drop (min cb.len (vec.cap - vec.data.length)) ∧
    (cb.fill vec).1.len = cb.len - min cb.len (vec.cap - vec.data.length) ∧
    (vec.cap - vec.data.length = 0 → (cb.fill vec).1 = cb ∧ (cb.fill vec).2.1 = vec) ∧
    (cb.len = 0 → (cb.fill vec).1 = cb ∧ (cb.fill vec).2.1 = vec) := by
  obtain ⟨a1, a2, a3, a4, a5, a6⟩ :=
    advance_props (min cb.len (vec.cap - vec.data.length)) cb hWF (Nat.min_le_left _ _)
  rw [fill_spec cb vec hWF]
  refine ⟨rfl, rfl, a3, a2, ?_, ?_⟩
  · intro hroom
    rw [hroom]
    simp [advance]
  · intro hlen0
    have hc : cb.contents = [] := by
      have := contents_length cb
      rw [hlen0] at this
      exact List.length_eq_zero.mp this
    rw [hlen0, hc]
    simp [advance]

/-- C1 witness: a concrete wrap-around full buffer drained into a sink with
room for two of its three values. -/
theorem C1_witness :
    WF (⟨[10, 20, 30], 1, 1, 3, true⟩ : CircularBuffer Nat) ∧
    ((⟨[10, 20, 30], 1, 1, 3, true⟩ : CircularBuffer Nat).fill ⟨[0], 3⟩).2.2
      = min (⟨[10, 20, 30], 1, 1, 3, true⟩ : CircularBuffer Nat).len
          ((⟨[0], 3⟩ : Vec Nat).cap - (⟨[0], 3⟩ : Vec Nat).data.length) :=
  ⟨by decide, (C1_fill_moves_min ⟨[10, 20, 30], 1, 1, 3, true⟩ ⟨[0], 3⟩ (by decide)).1⟩

/-- C2: on every well-formed buffer state and every sink state the reference
element-by-element drain and the bulk-copy drain return literally the same
triple: same resulting buffer state, same sink, same moved count. -/
theorem C2_fill_eq_fast_fill {α : Type} [Inhabited α] (cb : CircularBuffer α)
    (vec : Vec α) (hWF : WF cb) :
    cb.fill vec = cb._fast_fill vec :=
  (fast_fill_spec cb vec hWF).symm

/-- C2 witness: the two drains agree on a concrete wrap-around state. -/
theorem C2_witness :
    WF (⟨[10, 20, 30], 1, 1, 3, true⟩ : CircularBuffer Nat) ∧
    (⟨[10, 20, 30], 1, 1, 3, true⟩ : CircularBuffer Nat).fill ⟨[], 2⟩
      = (⟨[10, 20, 30], 1, 1, 3, true⟩ : CircularBuffer Nat)._fast_fill ⟨[], 2⟩ :=
  ⟨by decide, C2_fill_eq_fast_fill ⟨[10, 20, 30], 1, 1, 3, true⟩ ⟨[], 2⟩ (by decide)⟩

/-- C3: `push` always accepts the value (the new value always becomes the
newest occupied element), and returns the remaining free slot count after the
push: `capacity - len()`, which is `0` exactly when the buffer became full;
on capacity 8 the ten pushes return `[7, 6, 5, 4, 3, 2, 1, 0, 0, 0]`. -/
theorem C3_push_returns_free_slots :
    (∀ {α : Type} [Inhabited α] (cb : CircularBuffer α) (v : α), WF cb →
      (cb.push v).2 = cb.size - (cb.push v).1.len ∧
      ((cb.push v).1.full = true → (cb.push v).2 = 0) ∧
      (cb.push v).1.contents
        = (if cb.len = cb.size then cb.contents.drop 1 else cb.contents) ++ [v]) ∧
    pushRets (new 8 : CircularBuffer Nat) (List.range 10)
      = [7, 6, 5, 4, 3, 2, 1, 0, 0, 0] := by
  constructor
  · intro α _ cb v hWF
    obtain ⟨p1, p2, p3, p4, p5⟩ := push_spec cb v hWF
    refine ⟨p4, ?_, p5⟩
    intro hfl
    have : (cb.push v).1.len = (cb.push v).1.size := by simp [len, hfl]
    rw [p4, this, p2]
    omega
  · decide

/-- C3 witness: a concrete push on a fresh buffer of capacity 3. -/
theorem C3_witness :
    WF (new 3 : CircularBuffer Nat) ∧
    ((new 3 : CircularBuffer Nat).push 5).2
      = (new 3 : CircularBuffer Nat).size - ((new 3 : CircularBuffer Nat).push 5).1.len :=
  ⟨by decide, (C3_push_returns_free_slots.1 (new 3) 5 (by decide)).1⟩

/-- C4: pushing more than `n` values into a fresh buffer of capacity `n ≥ 1`
leaves `len() = n` and the occupied content, oldest-first, equal to exactly
the last `n` pushed values. -/
theorem C4_overwrite_keeps_last_n {α : Type} [Inhabited α] (n : Nat) (vs : List α)
    (hn : 0 < n) (hk : n < vs.length) :
    ((new n : CircularBuffer α).pushAll vs).len = n ∧
    ((new n : CircularBuffer α).pushAll vs).contents = vs.drop (vs.length - n) := by
  obtain ⟨q1, q2, q3, q4⟩ := pushAll_spec vs (new n) (WF_new n hn)
  constructor
  · rw [q3, len_new]
    show min (0 + vs.length) (new n : CircularBuffer α).size = n
    simp only [new]
    omega
  · rw [q4, contents_new, len_new]
    simp only [new, List.nil_append, Nat.zero_add]

/-- C4 witness: five pushes into capacity 2 keep exactly the last two. -/
theorem C4_witness :
    0 < 2 ∧ 2 < [1, 2, 3, 4, 5].length ∧
    ((new 2 : CircularBuffer Nat).pushAll [1, 2, 3, 4, 5]).contents
      = [1, 2, 3, 4, 5].drop ([1, 2, 3, 4, 5].length - 2) :=
  ⟨by decide, by decide,
    (C4_overwrite_keeps_last_n 2 [1, 2, 3, 4, 5] (by decide) (by decide)).2⟩

/-- C5: on every state reachable by pushes, pulls and fills from a constructed
buffer, `0 ≤ len() ≤ capacity`; `len()` is the capacity when the flag is set,
`0` when the cursors coincide with the flag clear, and otherwise the forward
circular distance from the read cursor to the write cursor. -/
theorem C5_len_invariant {α : Type} [Inhabited α] (cb : CircularBuffer α)
    (h : Reachable cb) :
    0 ≤ cb.len ∧ cb.len ≤ cb.size ∧
    (cb.full = true → cb.len = cb.size) ∧
    (cb.full = false → cb.w = cb.r → cb.len = 0) ∧
    (cb.full = false → cb.w ≠ cb.r → cb.len = (cb.w + cb.size - cb.r) % cb.size) := by
  have hWF := Reachable_WF cb h
  have hle := len_le_size cb hWF
  obtain ⟨h1, h2, h3, h4, h5⟩ := hWF
  refine ⟨Nat.zero_le _, hle, ?_, ?_, ?_⟩
  · intro hf
    simp [len, hf]
  · intro hf hwr
    simp [len, hf, hwr]
  · intro hf hwr
    simp only [len, hf, Bool.false_eq_true, if_false]
    rw [mod_two_cases _ _ (by omega)]
    split_ifs <;> omega

/-- C5 witness: the invariant at the concrete reachable state after one push. -/
theorem C5_witness :
    ((new 2 : CircularBuffer Nat).push 5).1.len
      ≤ ((new 2 : CircularBuffer Nat).push 5).1.size :=
  (C5_len_invariant ((new 2 : CircularBuffer Nat).push 5).1
    (Reachable.push_step (new 2) 5 (Reachable.base 2 (by omega)))).2.1

/-- C6: the claim says capacity 0 (or overflowing capacity) fails fatally at
construction; on the code, the overflow case does panic in `new`, but
capacity 0 passes every construction-time check and returns a degenerate
buffer whose first `push` then panics with a remainder-by-zero — the failure
is deferred, contradicting the claim. -/
theorem C6_zero_capacity_not_rejected :
    new_aborts_u32 0 = false ∧
    push_checked (new 0 : CircularBuffer Nat) 1 = none ∧
    new_aborts_u32 (2 ^ 62) = true := by
  decide

/-- C7: the claim says no implicit bitwise duplication can make two instances
alias one storage; the code derives `Copy`, and the pointer-level model shows
the bitwise copy keeps the same `buffer` pointer, so a write through the
original is visible through the copy: two instances over one allocation. -/
theorem C7_derive_copy_aliases :
    (deriveCopy (rawNew Nat 2 ⟨[]⟩).1).buffer = (rawNew Nat 2 ⟨[]⟩).1.buffer ∧
    (rawNew Nat 2 ⟨[]⟩).2.readSlot (deriveCopy (rawNew Nat 2 ⟨[]⟩).1).buffer 0 = 0 ∧
    (rawWrite (rawNew Nat 2 ⟨[]⟩).1 (rawNew Nat 2 ⟨[]⟩).2 7).2.readSlot
      (deriveCopy (rawNew Nat 2 ⟨[]⟩).1).buffer 0 = 7 ∧
    (rawNew Nat 2 (rawNew Nat 2 ⟨[]⟩).2).1.buffer ≠ (rawNew Nat 2 ⟨[]⟩).1.buffer := by
  decide

/-- C8: the single pull returns no value exactly when `len() = 0`; otherwise
it removes and returns the oldest occupied value, clears the flag and advances
the read cursor; and `size_hint` after the pull is exactly the remaining
`len()`. -/
theorem C8_next_pull {α : Type} [Inhabited α] (cb : CircularBuffer α) (hWF : WF cb) :
    (cb.len = 0 → cb.next = (cb, none)) ∧
    (0 < cb.len →
      cb.next.2 = cb.contents.head? ∧
      cb.next.1.contents = cb.contents.drop 1 ∧
      cb.next.1.full = false ∧
      cb.next.1.r = (cb.r + 1) % cb.size ∧
      cb.next.1.len = cb.len - 1) ∧
    cb.next.1.size_hint = (cb.next.1.len, some cb.next.1.len) := by
  refine ⟨next_zero cb, ?_, rfl⟩
  intro h0
  have hcont := contents_next cb hWF h0
  have hlen := len_next cb hWF h0
  have hnp := next_pos cb h0
  refine ⟨?_, ?_, ?_, ?_, hlen⟩
  · rw [hcont, hnp]
    rfl
  · rw [hcont]
    rfl
  · rw [hnp]
  · rw [hnp]

/-- C8 witness: one pull from a concrete full wrap-around buffer. -/
theorem C8_witness :
    WF (⟨[10, 20, 30], 1, 1, 3, true⟩ : CircularBuffer Nat) ∧
    0 < (⟨[10, 20, 30], 1, 1, 3, true⟩ : CircularBuffer Nat).len ∧
    (⟨[10, 20, 30], 1, 1, 3, true⟩ : CircularBuffer Nat).next.2
      = (⟨[10, 20, 30], 1, 1, 3, true⟩ : CircularBuffer Nat).contents.head? :=
  ⟨by decide, by decide,
    ((C8_next_pull ⟨[10, 20, 30], 1, 1, 3, true⟩ (by decide)).2.1 (by decide)).1⟩

/-- C9: the clone has the same capacity, cursor positions and flag, and copies
of exactly the occupied values (so the same `len` and the same oldest-first
contents); draining clone and original with equal sinks yields identical
output sequences and moved counts. The source buffer is a pure value in
this embedding, so cloning and later operations on either buffer leave the
other unchanged by construction. -/
theorem C9_clone_independent {α : Type} [Inhabited α] (cb : CircularBuffer α)
    (vec : Vec α) (hWF : WF cb) :
    cb.clone.size = cb.size ∧ cb.clone.w = cb.w ∧ cb.clone.r = cb.r ∧
    cb.clone.full = cb.full ∧ cb.clone.contents = cb.contents ∧
    cb.clone.len = cb.len ∧
    (cb.clone.fill vec).2 = (cb.fill vec).2 := by
  obtain ⟨hw, hr, hs, hf⟩ := clone_fields cb
  have hcont := contents_clone cb hWF
  have hlen := len_clone cb
  refine ⟨hs, hw, hr, hf, hcont, hlen, ?_⟩
  rw [fill_spec cb.clone vec (WF_clone cb hWF), fill_spec cb vec hWF, hcont, hlen]

/-- C9 witness: clone of a concrete wrap-around full buffer drains equally. -/
theorem C9_witness :
    WF (⟨[10, 20, 30], 1, 1, 3, true⟩ : CircularBuffer Nat) ∧
    ((⟨[10, 20, 30], 1, 1, 3, true⟩ : CircularBuffer Nat).clone.fill ⟨[], 2⟩).2
      = ((⟨[10, 20, 30], 1, 1, 3, true⟩ : CircularBuffer Nat).fill ⟨[], 2⟩).2 :=
  ⟨by decide,
    (C9_clone_independent ⟨[10, 20, 30], 1, 1, 3, true⟩ ⟨[], 2⟩ (by decide)).2.2.2.2.2.2⟩

/-- C10: both drains leave the sink prior prefix `[0, L)` untouched, write the
moved values exactly at `[L, L + moved)`, and never change the sink capacity
(no reallocation). -/
theorem C10_fill_frame {α : Type} [Inhabited α] (cb : CircularBuffer α)
    (vec : Vec α) (hWF : WF cb) :
    (cb.fill vec).2.1.cap = vec.cap ∧
    (cb.fill vec).2.1.data.take vec.data.length = vec.data ∧
    (cb.fill vec).2.1.data.drop vec.data.length = cb.contents.take ((cb.fill vec).2.2) ∧
    (cb.fill vec).2.1.data.length = vec.data.length + (cb.fill vec).2.2 ∧
    cb._fast_fill vec = cb.fill vec := by
  have hff := fast_fill_spec cb vec hWF
  rw [fill_spec cb vec hWF]
  have hmle : min cb.len (vec.cap - vec.data.length) ≤ cb.contents.length := by
    rw [contents_length]
    exact Nat.min_le_left _ _
  refine ⟨rfl, ?_, ?_, ?_, ?_⟩
  · rw [List.take_append_eq_append_take, List.take_length, Nat.sub_self,
      List.take_zero, List.append_nil]
  · rw [List.drop_append_eq_append_drop, List.drop_length, Nat.sub_self,
      List.drop_zero, List.nil_append]
  · show (vec.data ++ cb.contents.take (min cb.len (vec.cap - vec.data.length))).length
        = vec.data.length + min cb.len (vec.cap - vec.data.length)
    rw [List.length_append, List.length_take, contents_length]
    have := Nat.min_le_left cb.len (vec.cap - vec.data.length)
    omega
  · rw [hff, fill_spec cb vec hWF]

/-- C10 witness: the frame property on a concrete state with a nonempty sink
prefix. -/
theorem C10_witness :
    WF (⟨[10, 20, 30], 1, 1, 3, true⟩ : CircularBuffer Nat) ∧
    ((⟨[10, 20, 30], 1, 1, 3, true⟩ : CircularBuffer Nat).fill ⟨[7], 3⟩).2.1.cap
      = (⟨[7], 3⟩ : Vec Nat).cap :=
  ⟨by decide,
    (C10_fill_frame ⟨[10, 20, 30], 1, 1, 3, true⟩ ⟨[7], 3⟩ (by decide)).1⟩

end CircBuf
